import Mathlib

/-!
Verification of the periodical-cicada population simulation (`cicada.py`).

The embedding is shallow: cohort counts are rationals (the source mixes
Python floats produced by true division with floored integer counts; the
design notes sanction exact rational arithmetic with the same floor
semantics), `math.floor` is `Int.floor`, the `defaultdict(lambda:0, {})`
offspring mappings are functions `ℕ → ℚ` built by repeated
`Function.update` (default-zero lookup), and the ordered `dict` of cohort
queues is an association list `List (ℕ × List ℚ)` keyed by genotype.
The injected random services (the normal draw for initial sizing and the
uniform shuffle used by `RealSex`) are explicit parameters.
-/

/-- Ecosystem state: per-genotype cohort queues (`self.counts`, an ordered
mapping from period to the list of per-age counts), the generation counter
and the three scalar rates, exactly the persistent fields set by
`Ecosystem.__init__`. -/
structure Ecosystem where
  counts : List (ℕ × List ℚ)
  gen : ℕ
  larval_survival_rate : ℚ
  emergence_success_rate : ℚ
  clutch_rate : ℚ
deriving DecidableEq

/-- Initial cohort queue for one genotype `g` (`Ecosystem.__init__`):
`[0]*g`, then either every slot holds `n/g` (`initial_saturated`) or the
single oldest slot `g-1` holds `n`.  The size `n` is the target size, or
the drawn-and-floored normal sample when `initial_random` is set; the draw
comes from the injected RNG service, so `n` is a parameter here. -/
def initQueue (g : ℕ) (n : ℚ) (saturated : Bool) : List ℚ :=
  if saturated then List.replicate g (n / g) else List.replicate (g - 1) 0 ++ [n]

/-- The constructor `Ecosystem.__init__`: one queue per genotype, `gen = 0`,
and the three rates stored unchanged. -/
def mkEcosystem (genotype : List ℕ) (lsr esr cr : ℚ) (n : ℚ) (saturated : Bool) :
    Ecosystem where
  counts := genotype.map fun g => (g, initQueue g n saturated)
  gen := 0
  larval_survival_rate := lsr
  emergence_success_rate := esr
  clutch_rate := cr

/-- `tot_emergent`: the strategies' running sum of the emergent counts. -/
def totalEmergent (emergent : List (ℕ × ℚ)) : ℚ :=
  emergent.foldl (fun acc p => acc + p.2) 0

/-- `HybridModel.breed`: for every ordered pair of emergent entries
(`for (g1,n1) in emergent: for (g2,n2) in emergent:`) add
`floor(n1*n2/tot_emergent * clutch_rate * min(g1,g2))` to
`offspring[min(g1,g2)]`, starting from the empty default-zero mapping. -/
def hybridBreed (clutch_rate : ℚ) (emergent : List (ℕ × ℚ)) : ℕ → ℚ :=
  emergent.foldl
    (fun offspring p1 =>
      emergent.foldl
        (fun offspring2 p2 =>
          Function.update offspring2 (min p1.1 p2.1)
            (offspring2 (min p1.1 p2.1) +
              ((⌊p1.2 * p2.2 / totalEmergent emergent * clutch_rate *
                  ((min p1.1 p2.1 : ℕ) : ℚ)⌋ : ℤ) : ℚ)))
        offspring)
    (fun _ => 0)

/-- `Proportional.breed`: for each emergent entry `(g, n)` add
`floor(n * (n / tot_emergent) * clutch_rate)` to `offspring[g]`. -/
def proportionalBreed (clutch_rate : ℚ) (emergent : List (ℕ × ℚ)) : ℕ → ℚ :=
  emergent.foldl
    (fun offspring p =>
      Function.update offspring p.1
        (offspring p.1 +
          ((⌊p.2 * (p.2 / totalEmergent emergent) * clutch_rate⌋ : ℤ) : ℚ)))
    (fun _ => 0)

/-- The `adults` list of `RealSex.breed`: each genotype `g` repeated `n`
times (`adults += [g]*n`); the engine always supplies positive integer
counts, and `[g]*n` is empty for `n ≤ 0`, hence `Int.toNat`. -/
def flattenAdults (emergent : List (ℕ × ℤ)) : List ℕ :=
  emergent.foldl (fun adults p => adults ++ List.replicate p.2.toNat p.1) []

/-- The pairing loop of `RealSex.breed` on an already-shuffled adults list:
`half = len(adults)//2`, and for `i in range(half)`, if
`adults[i] == adults[i+half]` then `clutch_rate` is added to
`offspring[adults[i]]`. -/
def pairOff (clutch_rate : ℚ) (adults : List ℕ) : ℕ → ℚ :=
  (List.range (adults.length / 2)).foldl
    (fun offspring i =>
      if adults.getD i 0 = adults.getD (i + adults.length / 2) 0 then
        Function.update offspring (adults.getD i 0)
          (offspring (adults.getD i 0) + clutch_rate)
      else offspring)
    (fun _ => 0)

/-- `RealSex.breed`: flatten the emergent set to one entry per individual,
shuffle (`random.shuffle`, the injected uniform permutation), then pair off.
The in-range accesses `adults[i]`, `adults[i+half]` are rendered with
`getD _ 0`; both indices are below `2*half ≤ len(adults)`. -/
def realSexBreed (clutch_rate : ℚ) (shuffle : List ℕ → List ℕ)
    (emergent : List (ℕ × ℤ)) : ℕ → ℚ :=
  pairOff clutch_rate (shuffle (flattenAdults emergent))

/-- The emergent list built by `Ecosystem.tick`: per genotype,
`e = floor(counts[g].pop(0) * emergence_success_rate)`, and `(g, e)` is
appended exactly when `e > 0`. -/
def emergentOf (eco : Ecosystem) : List (ℕ × ℤ) :=
  eco.counts.foldl
    (fun emergent p =>
      if 0 < ⌊p.2.headD 0 * eco.emergence_success_rate⌋ then
        emergent ++ [(p.1, ⌊p.2.headD 0 * eco.emergence_success_rate⌋)]
      else emergent)
    []

/-- The underground action of `Ecosystem.tick` after the `pop(0)`: every
remaining cohort is replaced by `floor(count * larval_survival_rate)`.
The engine's invariant keeps every queue non-empty (length = period ≥ 1),
so `pop(0)` is total here: head removed via `tail`, head read via
`headD 0` in `emergentOf`. -/
def agedCounts (eco : Ecosystem) : List (ℕ × List ℚ) :=
  eco.counts.map fun p =>
    (p.1, p.2.tail.map fun x => ((⌊x * eco.larval_survival_rate⌋ : ℤ) : ℚ))

/-- The four classes: the abstract base `Ecosystem` and its three breeding
subclasses.  The engine dispatches `self.breed` by the dynamic class. -/
inductive Strategy
  | base
  | hybrid
  | proportional
  | realSex
deriving DecidableEq

/-- Dynamic dispatch of `breed`.  On the base class the body reaches
`raise NotImplementedError` (modelled as `none`); each subclass overrides
`breed`, so the base body is never reached for them.  The emergent counts
the engine passes are integers; the continuous strategies read them as
rationals. -/
def strategyBreed (s : Strategy) (clutch_rate : ℚ) (shuffle : List ℕ → List ℕ)
    (emergent : List (ℕ × ℤ)) : Option (ℕ → ℚ) :=
  match s with
  | .base => none
  | .hybrid => some (hybridBreed clutch_rate (emergent.map fun p => (p.1, (p.2 : ℚ))))
  | .proportional =>
      some (proportionalBreed clutch_rate (emergent.map fun p => (p.1, (p.2 : ℚ))))
  | .realSex => some (realSexBreed clutch_rate shuffle emergent)

/-- `Ecosystem.tick`: increment `gen`; per genotype pop the front cohort and
record its emergent adults (`emergentOf`), age the rest (`agedCounts`);
breed; then append `offspring[g]` to every queue (default-zero lookup).
`none` models the `NotImplementedError` escaping from the base class. -/
def tickE (s : Strategy) (shuffle : List ℕ → List ℕ) (eco : Ecosystem) :
    Option Ecosystem :=
  (strategyBreed s eco.clutch_rate shuffle (emergentOf eco)).map fun offspring =>
    { eco with
      gen := eco.gen + 1
      counts := (agedCounts eco).map fun p => (p.1, p.2 ++ [offspring p.1]) }

/-- `k` successive calls of `tick()` (the simulation loop). -/
def tickIter (s : Strategy) (shuffle : List ℕ → List ℕ) : ℕ → Ecosystem → Option Ecosystem
  | 0, eco => some eco
  | k + 1, eco => (tickE s shuffle eco).bind (tickIter s shuffle k)

/-- Modelled from the spec (§4.2 RealSex): the number of matched pairs
crediting genotype `g` — positions `i < half` whose element and whose
partner at `i + half` both carry genotype `g`.  Used to state the pairing
claim against the source's `pairOff` loop. -/
def pairMatches (adults : List ℕ) (g : ℕ) : ℕ :=
  (List.range (adults.length / 2)).countP fun i =>
    decide (adults.getD i 0 = g ∧ adults.getD (i + adults.length / 2) 0 = g)

/-- Inductive invariant carried through `tick()`: every genotype has a
positive period, its queue has exactly `period` cohorts, all cohort counts
are non-negative, and the survival and clutch rates are non-negative. -/
def EcoInv (eco : Ecosystem) : Prop :=
  (∀ p ∈ eco.counts, 0 < p.1 ∧ p.2.length = p.1 ∧ ∀ x ∈ p.2, 0 ≤ x) ∧
    0 ≤ eco.larval_survival_rate ∧ 0 ≤ eco.clutch_rate

/-- Concrete one-genotype state whose mature slot is empty: nothing emerges
in the next tick. -/
def ecoZero : Ecosystem := ⟨[(1, [0])], 0, 1, 1, 1⟩

/-- Concrete one-genotype state whose mature slot holds 4 adults. -/
def ecoFour : Ecosystem := ⟨[(1, [4])], 0, 1, 1, 1⟩

/-! ### Fold characterizations

The strategies accumulate into a default-zero mapping by repeated
`Function.update`; these lemmas turn such folds into sums over the
iterated list, read off at a single genotype. -/

theorem foldl_update_add {α : Type} (l : List α) (key : α → ℕ) (val : α → ℚ)
    (init : ℕ → ℚ) (g : ℕ) :
    l.foldl (fun off x => Function.update off (key x) (off (key x) + val x)) init g
      = init g + (l.map fun x => if key x = g then val x else 0).sum := by
  induction l generalizing init with
  | nil => simp
  | cons a t ih =>
      rw [List.foldl_cons, ih]
      by_cases h : key a = g
      · subst h
        rw [Function.update_same]
        simp [add_assoc]
      · rw [Function.update_noteq (Ne.symm h)]
        simp [h]

theorem foldl_update_add_ite {α : Type} (l : List α) (cond : α → Prop)
    [DecidablePred cond] (key : α → ℕ) (val : α → ℚ) (init : ℕ → ℚ) (g : ℕ) :
    l.foldl
        (fun off x =>
          if cond x then Function.update off (key x) (off (key x) + val x) else off)
        init g
      = init g + (l.map fun x => if cond x ∧ key x = g then val x else 0).sum := by
  induction l generalizing init with
  | nil => simp
  | cons a t ih =>
      rw [List.foldl_cons, ih]
      by_cases hc : cond a
      · by_cases h : key a = g
        · subst h
          rw [if_pos hc, Function.update_same]
          simp [hc, add_assoc]
        · rw [if_pos hc, Function.update_noteq (Ne.symm h)]
          simp [h]
      · rw [if_neg hc]
        simp [hc]

theorem sum_map_intCast {α : Type} (l : List α) (f : α → ℤ) :
    (l.map fun x => ((f x : ℤ) : ℚ)).sum = (((l.map f).sum : ℤ) : ℚ) := by
  induction l with
  | nil => simp
  | cons a t ih => simp [ih]

theorem sum_ite_eq_zero {α : Type} (l : List α) (P : α → Prop) [DecidablePred P]
    (v : α → ℚ) (h : ∀ x ∈ l, ¬ P x) :
    (l.map fun x => if P x then v x else 0).sum = 0 := by
  induction l with
  | nil => simp
  | cons a t ih =>
      have ha : ¬ P a := h a (List.mem_cons_self a t)
      simp only [List.map_cons, List.sum_cons, if_neg ha]
      rw [ih fun x hx => h x (List.mem_cons_of_mem a hx)]
      simp

theorem sum_ite_const {α : Type} (l : List α) (P : α → Prop) [DecidablePred P]
    (c : ℚ) :
    (l.map fun x => if P x then c else 0).sum = c * (l.countP fun x => decide (P x)) := by
  induction l with
  | nil => simp
  | cons a t ih =>
      by_cases h : P a <;>
        simp [h, ih, List.countP_cons, mul_add, add_comm]

theorem sum_ite_key_of_nodup {l : List (ℕ × ℚ)} (hnd : (l.map Prod.fst).Nodup)
    {g : ℕ} {n : ℚ} (hmem : (g, n) ∈ l) (v : ℚ → ℚ) :
    (l.map fun p => if p.1 = g then v p.2 else 0).sum = v n := by
  induction l with
  | nil => exact absurd hmem (List.not_mem_nil _)
  | cons a t ih =>
      simp only [List.map_cons, List.nodup_cons] at hnd
      rcases List.mem_cons.1 hmem with h | h
      · subst h
        simp only [List.map_cons, List.sum_cons, if_pos rfl]
        rw [sum_ite_eq_zero t (fun p => p.1 = g) (fun p => v p.2)]
        · simp
        · intro x hx hx1
          exact hnd.1 (by simpa [hx1] using List.mem_map_of_mem Prod.fst hx)
      · have ha : a.1 ≠ g := by
          intro h1
          exact hnd.1 (by simpa [h1] using List.mem_map_of_mem Prod.fst h)
        simp only [List.map_cons, List.sum_cons, if_neg ha]
        rw [ih hnd.2 h]
        simp

theorem totalEmergent_eq_sum (em : List (ℕ × ℚ)) :
    totalEmergent em = (em.map Prod.snd).sum := by
  have h : ∀ (l : List (ℕ × ℚ)) (a : ℚ),
      l.foldl (fun acc p => acc + p.2) a = a + (l.map Prod.snd).sum := by
    intro l
    induction l with
    | nil => simp
    | cons b t ih => intro a; simp [ih, add_assoc]
  simpa [totalEmergent] using h em 0

/-! ### Sum characterizations of the three breed functions -/

theorem hybrid_inner_eq (em : List (ℕ × ℚ)) (T c : ℚ) (a : ℕ × ℚ)
    (init : ℕ → ℚ) (g : ℕ) :
    em.foldl
        (fun off2 p2 =>
          Function.update off2 (min a.1 p2.1)
            (off2 (min a.1 p2.1) +
              ((⌊a.2 * p2.2 / T * c * ((min a.1 p2.1 : ℕ) : ℚ)⌋ : ℤ) : ℚ)))
        init g
      = init g +
          (em.map fun p2 =>
            if min a.1 p2.1 = g
            then ((⌊a.2 * p2.2 / T * c * ((min a.1 p2.1 : ℕ) : ℚ)⌋ : ℤ) : ℚ)
            else 0).sum :=
  foldl_update_add em (fun p2 => min a.1 p2.1)
    (fun p2 => ((⌊a.2 * p2.2 / T * c * ((min a.1 p2.1 : ℕ) : ℚ)⌋ : ℤ) : ℚ)) init g

theorem hybrid_foldl_eq (em : List (ℕ × ℚ)) (T c : ℚ) (l : List (ℕ × ℚ))
    (init : ℕ → ℚ) (g : ℕ) :
    l.foldl
        (fun off p1 =>
          em.foldl
            (fun off2 p2 =>
              Function.update off2 (min p1.1 p2.1)
                (off2 (min p1.1 p2.1) +
                  ((⌊p1.2 * p2.2 / T * c * ((min p1.1 p2.1 : ℕ) : ℚ)⌋ : ℤ) : ℚ)))
            off)
        init g
      = init g +
          (l.map fun p1 =>
            (em.map fun p2 =>
              if min p1.1 p2.1 = g
              then ((⌊p1.2 * p2.2 / T * c * ((min p1.1 p2.1 : ℕ) : ℚ)⌋ : ℤ) : ℚ)
              else 0).sum).sum := by
  induction l generalizing init with
  | nil => simp
  | cons a t ih =>
      rw [List.foldl_cons, ih, hybrid_inner_eq]
      simp [add_assoc]

/-- `HybridModel.breed` read at one genotype: the sum, over every ordered
pair of emergent entries, of the floored contribution whose hybrid child
genotype `min(g1,g2)` is the genotype read. -/
theorem hybridBreed_eq_sum (c : ℚ) (em : List (ℕ × ℚ)) (g : ℕ) :
    hybridBreed c em g
      = (em.map fun p1 =>
          (em.map fun p2 =>
            if min p1.1 p2.1 = g
            then ((⌊p1.2 * p2.2 / totalEmergent em * c *
                ((min p1.1 p2.1 : ℕ) : ℚ)⌋ : ℤ) : ℚ)
            else 0).sum).sum := by
  simpa [hybridBreed] using
    hybrid_foldl_eq em (totalEmergent em) c em (fun _ => 0) g

theorem proportionalBreed_eq_sum (c : ℚ) (em : List (ℕ × ℚ)) (g : ℕ) :
    proportionalBreed c em g
      = (em.map fun p =>
          if p.1 = g
          then ((⌊p.2 * (p.2 / totalEmergent em) * c⌋ : ℤ) : ℚ)
          else 0).sum := by
  simpa [proportionalBreed] using
    foldl_update_add em (fun p => p.1)
      (fun p => ((⌊p.2 * (p.2 / totalEmergent em) * c⌋ : ℤ) : ℚ)) (fun _ => 0) g

theorem pairOff_eq_sum (c : ℚ) (adults : List ℕ) (g : ℕ) :
    pairOff c adults g
      = ((List.range (adults.length / 2)).map fun i =>
          if adults.getD i 0 = adults.getD (i + adults.length / 2) 0 ∧
              adults.getD i 0 = g
          then c else 0).sum := by
  simpa [pairOff] using
    foldl_update_add_ite (List.range (adults.length / 2))
      (fun i => adults.getD i 0 = adults.getD (i + adults.length / 2) 0)
      (fun i => adults.getD i 0) (fun _ => c) (fun _ => 0) g

/-- The pairing loop counts matched pairs: at genotype `g` it returns the
clutch rate times the number of positions whose pair matches on `g`. -/
theorem pairOff_eq_matches (c : ℚ) (adults : List ℕ) (g : ℕ) :
    pairOff c adults g = c * pairMatches adults g := by
  rw [pairOff_eq_sum, pairMatches]
  have hiff : ∀ i : ℕ,
      (adults.getD i 0 = adults.getD (i + adults.length / 2) 0 ∧
        adults.getD i 0 = g)
      ↔ (adults.getD i 0 = g ∧ adults.getD (i + adults.length / 2) 0 = g) := by
    intro i
    constructor
    · rintro ⟨h1, h2⟩
      exact ⟨h2, h1 ▸ h2⟩
    · rintro ⟨h1, h2⟩
      exact ⟨h1.trans h2.symm, h1⟩
  calc ((List.range (adults.length / 2)).map fun i =>
          if adults.getD i 0 = adults.getD (i + adults.length / 2) 0 ∧
              adults.getD i 0 = g
          then c else 0).sum
      = ((List.range (adults.length / 2)).map fun i =>
          if adults.getD i 0 = g ∧ adults.getD (i + adults.length / 2) 0 = g
          then c else 0).sum := by
        refine congrArg List.sum (List.map_congr_left fun i _ => ?_)
        exact if_congr (hiff i) rfl rfl
    _ = c * pairMatches adults g := by
        rw [sum_ite_const, pairMatches]

/-! ### Characterizations of the engine's emergent list and adults list -/

theorem emergentOf_eq_filterMap (eco : Ecosystem) :
    emergentOf eco
      = eco.counts.filterMap fun p =>
          if 0 < ⌊p.2.headD 0 * eco.emergence_success_rate⌋
          then some (p.1, ⌊p.2.headD 0 * eco.emergence_success_rate⌋)
          else none := by
  have h : ∀ (l : List (ℕ × List ℚ)) (init : List (ℕ × ℤ)),
      l.foldl
          (fun emergent p =>
            if 0 < ⌊p.2.headD 0 * eco.emergence_success_rate⌋ then
              emergent ++ [(p.1, ⌊p.2.headD 0 * eco.emergence_success_rate⌋)]
            else emergent)
          init
        = init ++ l.filterMap fun p =>
            if 0 < ⌊p.2.headD 0 * eco.emergence_success_rate⌋
            then some (p.1, ⌊p.2.headD 0 * eco.emergence_success_rate⌋)
            else none := by
    intro l
    induction l with
    | nil => simp
    | cons a t ih =>
        intro init
        rw [List.foldl_cons]
        by_cases h : 0 < ⌊a.2.headD 0 * eco.emergence_success_rate⌋
        · rw [if_pos h, ih]
          simp only [List.filterMap_cons]
          rw [if_pos h]
          simp
        · rw [if_neg h, ih]
          simp only [List.filterMap_cons]
          rw [if_neg h]
  simpa [emergentOf] using h eco.counts []

theorem flattenAdults_eq_bind (em : List (ℕ × ℤ)) :
    flattenAdults em = em.flatMap fun p => List.replicate p.2.toNat p.1 := by
  have h : ∀ (l : List (ℕ × ℤ)) (init : List ℕ),
      l.foldl (fun adults p => adults ++ List.replicate p.2.toNat p.1) init
        = init ++ l.flatMap fun p => List.replicate p.2.toNat p.1 := by
    intro l
    induction l with
    | nil => simp
    | cons a t ih => intro init; simp [ih]
  simpa [flattenAdults] using h em []

/-! ### Membership and positivity of the tick-built emergent list -/

theorem emergentOf_mem (eco : Ecosystem) (g : ℕ) (e : ℤ) :
    (g, e) ∈ emergentOf eco ↔
      ∃ q, (g, q) ∈ eco.counts ∧
        e = ⌊q.headD 0 * eco.emergence_success_rate⌋ ∧ 0 < e := by
  rw [emergentOf_eq_filterMap, List.mem_filterMap]
  constructor
  · rintro ⟨p, hp, hfp⟩
    by_cases h : 0 < ⌊p.2.headD 0 * eco.emergence_success_rate⌋
    · rw [if_pos h] at hfp
      have heq := Option.some.inj hfp
      have h1 : p.1 = g := congrArg Prod.fst heq
      have h2 : ⌊p.2.headD 0 * eco.emergence_success_rate⌋ = e := congrArg Prod.snd heq
      refine ⟨p.2, ?_, h2.symm, h2 ▸ h⟩
      have hgp : (g, p.2) = p := by rw [← h1]
      rw [hgp]
      exact hp
    · rw [if_neg h] at hfp
      exact Option.noConfusion hfp
  · rintro ⟨q, hq, rfl, hpos⟩
    exact ⟨(g, q), hq, by rw [if_pos hpos]⟩

theorem emergentOf_pos (eco : Ecosystem) : ∀ p ∈ emergentOf eco, 0 < p.2 := by
  intro p hp
  obtain ⟨q, _, _, hpos⟩ := (emergentOf_mem eco p.1 p.2).1 hp
  exact hpos

/-! ### Nonnegativity of the breed outputs -/

theorem totalEmergent_nonneg (em : List (ℕ × ℚ)) (h : ∀ p ∈ em, 0 ≤ p.2) :
    0 ≤ totalEmergent em := by
  rw [totalEmergent_eq_sum]
  refine List.sum_nonneg ?_
  intro x hx
  rcases List.mem_map.1 hx with ⟨p, hp, rfl⟩
  exact h p hp

theorem hybridBreed_nonneg (c : ℚ) (em : List (ℕ × ℚ)) (hc : 0 ≤ c)
    (hem : ∀ p ∈ em, 0 ≤ p.2) (g : ℕ) : 0 ≤ hybridBreed c em g := by
  rw [hybridBreed_eq_sum]
  refine List.sum_nonneg ?_
  intro x hx
  rcases List.mem_map.1 hx with ⟨p1, hp1, rfl⟩
  refine List.sum_nonneg ?_
  intro y hy
  rcases List.mem_map.1 hy with ⟨p2, hp2, rfl⟩
  by_cases h : min p1.1 p2.1 = g
  · rw [if_pos h]
    have harg : 0 ≤ p1.2 * p2.2 / totalEmergent em * c * ((min p1.1 p2.1 : ℕ) : ℚ) :=
      mul_nonneg
        (mul_nonneg
          (div_nonneg (mul_nonneg (hem p1 hp1) (hem p2 hp2))
            (totalEmergent_nonneg em hem)) hc)
        (Nat.cast_nonneg _)
    exact_mod_cast Int.floor_nonneg.2 harg
  · rw [if_neg h]

theorem proportionalBreed_nonneg (c : ℚ) (em : List (ℕ × ℚ)) (hc : 0 ≤ c)
    (hem : ∀ p ∈ em, 0 ≤ p.2) (g : ℕ) : 0 ≤ proportionalBreed c em g := by
  rw [proportionalBreed_eq_sum]
  refine List.sum_nonneg ?_
  intro x hx
  rcases List.mem_map.1 hx with ⟨p, hp, rfl⟩
  by_cases h : p.1 = g
  · rw [if_pos h]
    have harg : 0 ≤ p.2 * (p.2 / totalEmergent em) * c :=
      mul_nonneg
        (mul_nonneg (hem p hp)
          (div_nonneg (hem p hp) (totalEmergent_nonneg em hem))) hc
    exact_mod_cast Int.floor_nonneg.2 harg
  · rw [if_neg h]

theorem pairOff_nonneg (c : ℚ) (hc : 0 ≤ c) (adults : List ℕ) (g : ℕ) :
    0 ≤ pairOff c adults g := by
  rw [pairOff_eq_matches]
  exact mul_nonneg hc (Nat.cast_nonneg _)

theorem realSexBreed_nonneg (c : ℚ) (hc : 0 ≤ c) (shuffle : List ℕ → List ℕ)
    (em : List (ℕ × ℤ)) (g : ℕ) : 0 ≤ realSexBreed c shuffle em g :=
  pairOff_nonneg c hc _ g

/-! ### Integrality of the stored offspring values -/

theorem sum_intCast_ite {α : Type} (l : List α) (F : α → ℤ) (P : α → Prop)
    [DecidablePred P] :
    (l.map fun x => if P x then ((F x : ℤ) : ℚ) else 0).sum
      = (((l.map fun x => if P x then F x else 0).sum : ℤ) : ℚ) := by
  rw [← sum_map_intCast]
  refine congrArg List.sum (List.map_congr_left fun x _ => ?_)
  split <;> simp

theorem hybridBreed_intCast (c : ℚ) (em : List (ℕ × ℚ)) (g : ℕ) :
    ∃ z : ℤ, hybridBreed c em g = (z : ℚ) := by
  refine ⟨(em.map fun p1 =>
    (em.map fun p2 =>
      if min p1.1 p2.1 = g
      then ⌊p1.2 * p2.2 / totalEmergent em * c * ((min p1.1 p2.1 : ℕ) : ℚ)⌋
      else 0).sum).sum, ?_⟩
  rw [hybridBreed_eq_sum, ← sum_map_intCast]
  refine congrArg List.sum (List.map_congr_left fun p1 _ => ?_)
  exact sum_intCast_ite em _ _

theorem proportionalBreed_intCast (c : ℚ) (em : List (ℕ × ℚ)) (g : ℕ) :
    ∃ z : ℤ, proportionalBreed c em g = (z : ℚ) := by
  refine ⟨(em.map fun p =>
    if p.1 = g then ⌊p.2 * (p.2 / totalEmergent em) * c⌋ else 0).sum, ?_⟩
  rw [proportionalBreed_eq_sum]
  exact sum_intCast_ite em _ _

theorem realSexBreed_intCast (zc : ℤ) (shuffle : List ℕ → List ℕ)
    (em : List (ℕ × ℤ)) (g : ℕ) :
    ∃ z : ℤ, realSexBreed (zc : ℚ) shuffle em g = (z : ℚ) := by
  refine ⟨zc * pairMatches (shuffle (flattenAdults em)) g, ?_⟩
  rw [realSexBreed, pairOff_eq_matches]
  push_cast
  ring

/-! ### The pairing loop never consults the unpaired last element -/

theorem pairOff_append_last (c : ℚ) (l : List ℕ) (x y : ℕ)
    (hl : l.length % 2 = 0) : pairOff c (l ++ [x]) = pairOff c (l ++ [y]) := by
  funext g
  rw [pairOff_eq_sum, pairOff_eq_sum]
  have hhalf : (l.length + 1) / 2 = l.length / 2 := by omega
  simp only [List.length_append, List.length_singleton, hhalf]
  refine congrArg List.sum (List.map_congr_left fun i hi => ?_)
  have hik : i < l.length / 2 := List.mem_range.1 hi
  have h1 : i < l.length := by omega
  have h2 : i + l.length / 2 < l.length := by omega
  rw [List.getD_append l [x] 0 i h1, List.getD_append l [y] 0 i h1,
    List.getD_append l [x] 0 _ h2, List.getD_append l [y] 0 _ h2]

/-! ### Genotypes absent from the emergent set receive nothing -/

theorem hybridBreed_absent (c : ℚ) (em : List (ℕ × ℚ)) (g : ℕ)
    (h : g ∉ em.map Prod.fst) : hybridBreed c em g = 0 := by
  rw [hybridBreed_eq_sum]
  refine List.sum_eq_zero ?_
  intro v hv
  rcases List.mem_map.1 hv with ⟨p1, hp1, rfl⟩
  refine sum_ite_eq_zero em _ _ fun p2 hp2 hmin => ?_
  rcases min_choice p1.1 p2.1 with hm | hm
  · exact h (by rw [← hmin, hm]; exact List.mem_map_of_mem Prod.fst hp1)
  · exact h (by rw [← hmin, hm]; exact List.mem_map_of_mem Prod.fst hp2)

theorem proportionalBreed_absent (c : ℚ) (em : List (ℕ × ℚ)) (g : ℕ)
    (h : g ∉ em.map Prod.fst) : proportionalBreed c em g = 0 := by
  rw [proportionalBreed_eq_sum]
  refine sum_ite_eq_zero em _ _ fun p hp hpg => ?_
  exact h (hpg ▸ List.mem_map_of_mem Prod.fst hp)

theorem realSexBreed_absent (c : ℚ) (sh : List ℕ → List ℕ) (emz : List (ℕ × ℤ))
    (g : ℕ) (h : g ∉ emz.map Prod.fst)
    (hsh : (sh (flattenAdults emz)).Perm (flattenAdults emz)) :
    realSexBreed c sh emz g = 0 := by
  rw [realSexBreed, pairOff_eq_matches]
  have hcount : pairMatches (sh (flattenAdults emz)) g = 0 := by
    rw [pairMatches, List.countP_eq_zero]
    intro i hi
    simp only [decide_eq_true_eq, not_and]
    intro hg1 _
    have hik : i < (sh (flattenAdults emz)).length / 2 := List.mem_range.1 hi
    have h1 : i < (sh (flattenAdults emz)).length :=
      lt_of_lt_of_le hik (Nat.div_le_self _ _)
    have hmem : g ∈ sh (flattenAdults emz) := by
      rw [← hg1, List.getD_eq_getElem _ _ h1]
      exact List.getElem_mem h1
    have hflat : g ∈ flattenAdults emz := hsh.mem_iff.1 hmem
    rw [flattenAdults_eq_bind, List.mem_flatMap] at hflat
    rcases hflat with ⟨p, hp, hrep⟩
    exact h (List.eq_of_mem_replicate hrep ▸ List.mem_map_of_mem Prod.fst hp)
  rw [hcount]
  simp

/-! ### Empty emergent set: no pairs are iterated, no division is reached -/

theorem hybridBreed_nil (c : ℚ) (g : ℕ) : hybridBreed c [] g = 0 := rfl

theorem proportionalBreed_nil (c : ℚ) (g : ℕ) : proportionalBreed c [] g = 0 := rfl

/-! ### The engine invariant: positive periods, full queues, non-negative counts -/

theorem strategyBreed_nonneg (s : Strategy) (c : ℚ) (hc : 0 ≤ c)
    (sh : List ℕ → List ℕ) (emz : List (ℕ × ℤ)) (hpos : ∀ p ∈ emz, 0 < p.2)
    (off : ℕ → ℚ) (hoff : strategyBreed s c sh emz = some off) (g : ℕ) :
    0 ≤ off g := by
  have hcast : ∀ p ∈ emz.map fun p => (p.1, ((p.2 : ℤ) : ℚ)), 0 ≤ p.2 := by
    intro p hp
    rcases List.mem_map.1 hp with ⟨q, hq, rfl⟩
    show (0 : ℚ) ≤ ((q.2 : ℤ) : ℚ)
    exact_mod_cast (hpos q hq).le
  cases s with
  | base => exact Option.noConfusion hoff
  | hybrid =>
      have h := (Option.some.inj hoff).symm
      subst h
      exact hybridBreed_nonneg c _ hc hcast g
  | proportional =>
      have h := (Option.some.inj hoff).symm
      subst h
      exact proportionalBreed_nonneg c _ hc hcast g
  | realSex =>
      have h := (Option.some.inj hoff).symm
      subst h
      exact realSexBreed_nonneg c hc sh emz g

theorem tickE_preserves (s : Strategy) (sh : List ℕ → List ℕ)
    (eco eco' : Ecosystem) (hInv : EcoInv eco) (h : tickE s sh eco = some eco') :
    EcoInv eco' := by
  obtain ⟨hq, hl, hc⟩ := hInv
  rw [tickE] at h
  rcases Option.map_eq_some'.1 h with ⟨off, hoff, heq⟩
  subst heq
  refine ⟨?_, hl, hc⟩
  intro p' hp'
  rcases List.mem_map.1 hp' with ⟨p'', hp'', rfl⟩
  rcases List.mem_map.1 hp'' with ⟨p, hp, rfl⟩
  obtain ⟨hper, hlen, hnn⟩ := hq p hp
  refine ⟨hper, ?_, ?_⟩
  · simp only [List.length_append, List.length_map, List.length_tail,
      List.length_singleton]
    omega
  · intro x hx
    rcases List.mem_append.1 hx with hx | hx
    · rcases List.mem_map.1 hx with ⟨y, hy, rfl⟩
      have hy0 : 0 ≤ y := hnn y (List.mem_of_mem_tail hy)
      exact_mod_cast Int.floor_nonneg.2 (mul_nonneg hy0 hl)
    · rw [List.mem_singleton.1 hx]
      exact strategyBreed_nonneg s eco.clutch_rate hc sh (emergentOf eco)
        (emergentOf_pos eco) off hoff p.1

theorem tickIter_preserves (s : Strategy) (sh : List ℕ → List ℕ) (k : ℕ) :
    ∀ eco eco', EcoInv eco → tickIter s sh k eco = some eco' → EcoInv eco' := by
  induction k with
  | zero =>
      intro eco eco' hInv h
      exact (Option.some.inj h) ▸ hInv
  | succ k ih =>
      intro eco eco' hInv h
      rw [tickIter] at h
      rcases Option.bind_eq_some.1 h with ⟨mid, hmid, hrest⟩
      exact ih mid eco' (tickE_preserves s sh eco mid hInv hmid) hrest

theorem mkEcosystem_inv (genotype : List ℕ) (lsr esr cr n : ℚ) (sat : Bool)
    (hg : ∀ g ∈ genotype, 0 < g) (hn : 0 ≤ n) (hl : 0 ≤ lsr) (hc : 0 ≤ cr) :
    EcoInv (mkEcosystem genotype lsr esr cr n sat) := by
  refine ⟨?_, hl, hc⟩
  intro p hp
  rcases List.mem_map.1 hp with ⟨g, hgm, rfl⟩
  have hg' := hg g hgm
  refine ⟨hg', ?_, ?_⟩
  · rw [initQueue]
    cases sat with
    | true => simp
    | false =>
        simp only [Bool.false_eq_true, if_false, List.length_append,
          List.length_replicate, List.length_singleton]
        omega
  · intro x hx
    rw [initQueue] at hx
    cases sat with
    | true =>
        have hx1 : x ∈ List.replicate g (n / (g : ℚ)) := by simpa using hx
        rw [List.eq_of_mem_replicate hx1]
        exact div_nonneg hn (Nat.cast_nonneg g)
    | false =>
        simp only [Bool.false_eq_true, if_false] at hx
        rcases List.mem_append.1 hx with hx | hx
        · rw [List.eq_of_mem_replicate hx]
        · rw [List.mem_singleton.1 hx]
          exact hn

/-! ## Claims -/

/-- C2: for every emergent set of positive-count pairs, `HybridModel.breed`
at a genotype `g` is the sum, over every ordered pair of entries (the
self-pair included and each unordered pair visited in both directions), of
`floor((n1*n2/T) * clutch_rate * min(g1,g2))` for the pairs whose child
genotype `min(g1,g2)` is `g`; genotypes receiving no increment map to 0. -/
theorem hybrid_allpairs (c : ℚ) (em : List (ℕ × ℚ)) (hpos : ∀ p ∈ em, 0 < p.2)
    (g : ℕ) :
    hybridBreed c em g
      = (em.map fun p1 =>
          (em.map fun p2 =>
            if min p1.1 p2.1 = g
            then ((⌊p1.2 * p2.2 / totalEmergent em * c *
                ((min p1.1 p2.1 : ℕ) : ℚ)⌋ : ℤ) : ℚ)
            else 0).sum).sum ∧
      ((∀ p1 ∈ em, ∀ p2 ∈ em, min p1.1 p2.1 ≠ g) → hybridBreed c em g = 0) := by
  refine ⟨hybridBreed_eq_sum c em g, fun hne => ?_⟩
  rw [hybridBreed_eq_sum]
  refine List.sum_eq_zero ?_
  intro v hv
  rcases List.mem_map.1 hv with ⟨p1, hp1, rfl⟩
  exact sum_ite_eq_zero em _ _ fun p2 hp2 => hne p1 hp1 p2 hp2

theorem hybrid_allpairs_witness :
    hybridBreed 2 [((3 : ℕ), (10 : ℚ)), (5, 6)] 7 = 0 ∧
      hybridBreed 2 [((3 : ℕ), (10 : ℚ)), (5, 6)] 3
        = ([((3 : ℕ), (10 : ℚ)), (5, 6)].map fun p1 =>
            ([((3 : ℕ), (10 : ℚ)), (5, 6)].map fun p2 =>
              if min p1.1 p2.1 = 3
              then ((⌊p1.2 * p2.2 / totalEmergent [((3 : ℕ), (10 : ℚ)), (5, 6)] * 2 *
                  ((min p1.1 p2.1 : ℕ) : ℚ)⌋ : ℤ) : ℚ)
              else 0).sum).sum :=
  ⟨(hybrid_allpairs 2 [((3 : ℕ), (10 : ℚ)), (5, 6)] (by norm_num) 7).2 (by decide),
   (hybrid_allpairs 2 [((3 : ℕ), (10 : ℚ)), (5, 6)] (by norm_num) 3).1⟩

/-- C4 counterexample: on the fixed emergent set `{(3,10),(5,6)}` with
`clutch_rate = 2` the code assigns `offspring[3] = 37 + 22 + 22 = 81`,
because the cross pair is iterated in both directions; the claimed value
`floor((10*10/16)*2*3) + floor((10*6/16)*2*3) = 37 + 22 = 59` counts the
cross term only once and differs from the code. -/
theorem hybrid_fixed_counterexample :
    hybridBreed 2 [((3 : ℕ), (10 : ℚ)), (5, 6)] 3
      ≠ ((⌊(10 : ℚ) * 10 / 16 * 2 * 3⌋ : ℤ) : ℚ) +
          ((⌊(10 : ℚ) * 6 / 16 * 2 * 3⌋ : ℤ) : ℚ) := by
  norm_num [hybridBreed, totalEmergent, Function.update]

/-- C4 amended: on the fixed emergent set `{(3,10),(5,6)}` with
`clutch_rate = 2`, `offspring[3]` equals the self-term
`floor((10*10/16)*2*3)` plus twice the cross term `floor((10*6/16)*2*3)`,
once per direction of the unordered pair. -/
theorem hybrid_fixed_amended :
    hybridBreed 2 [((3 : ℕ), (10 : ℚ)), (5, 6)] 3
      = ((⌊(10 : ℚ) * 10 / 16 * 2 * 3⌋ : ℤ) : ℚ) +
          2 * ((⌊(10 : ℚ) * 6 / 16 * 2 * 3⌋ : ℤ) : ℚ) := by
  norm_num [hybridBreed, totalEmergent, Function.update]

/-- C5: for every emergent set with positive counts and distinct genotypes,
`Proportional.breed` assigns each emergent `(g, n)` exactly
`floor(n * (n/T) * clutch_rate)` offspring and every other genotype 0;
in particular the singleton set `{(4,8)}` with `clutch_rate = 5` yields
`offspring[4] = 40`. -/
theorem proportional_share (c : ℚ) (em : List (ℕ × ℚ))
    (hpos : ∀ p ∈ em, 0 < p.2) (hnd : (em.map Prod.fst).Nodup) (g : ℕ) :
    (∀ n : ℚ, (g, n) ∈ em →
        proportionalBreed c em g = ((⌊n * (n / totalEmergent em) * c⌋ : ℤ) : ℚ)) ∧
      (g ∉ em.map Prod.fst → proportionalBreed c em g = 0) ∧
      proportionalBreed 5 [(4, 8)] 4 = 40 := by
  refine ⟨fun n hmem => ?_, proportionalBreed_absent c em g, ?_⟩
  · rw [proportionalBreed_eq_sum]
    exact sum_ite_key_of_nodup hnd hmem
      fun x => ((⌊x * (x / totalEmergent em) * c⌋ : ℤ) : ℚ)
  · norm_num [proportionalBreed, totalEmergent, Function.update]

theorem proportional_share_witness :
    proportionalBreed 5 [((4 : ℕ), (8 : ℚ))] 4
      = ((⌊(8 : ℚ) * (8 / totalEmergent [((4 : ℕ), (8 : ℚ))]) * 5⌋ : ℤ) : ℚ) :=
  (proportional_share 5 [((4 : ℕ), (8 : ℚ))] (by norm_num) (by simp) 4).1 8
    (by simp)

/-- C3 counterexample: `RealSex.breed` adds `clutch_rate` itself, without
flooring; with the fractional `clutch_rate = 5/2` and emergent set
`{(2,2)}` (the two matching adults form one pair) the stored offspring
value is `5/2`, not an integer. -/
theorem realsex_fractional_clutch :
    realSexBreed (5 / 2) id [((2 : ℕ), (2 : ℤ))] 2 = 5 / 2 ∧
      ¬ ∃ z : ℤ, ((5 : ℚ) / 2) = (z : ℚ) := by
  constructor
  · rw [realSexBreed, pairOff_eq_matches]
    have h : pairMatches (id (flattenAdults [((2 : ℕ), (2 : ℤ))])) 2 = 1 := by decide
    rw [h]
    norm_num
  · rintro ⟨z, hz⟩
    have h2 : (5 : ℚ) = (z : ℚ) * 2 := by
      rw [← hz]
      norm_num
    have h3 : (5 : ℤ) = z * 2 := by exact_mod_cast h2
    omega

/-- C3 amended: `HybridModel.breed` and `Proportional.breed` floor before
storing, so every value they store is an integer for any emergent set and
any clutch rate; `RealSex.breed` stores whole multiples of `clutch_rate`
without flooring, so its values are integers whenever `clutch_rate` is an
integer (but not in general, see the counterexample). -/
theorem breed_integrality (c : ℚ) (hc : 0 ≤ c) (em : List (ℕ × ℚ))
    (emz : List (ℕ × ℤ)) (sh : List ℕ → List ℕ) (g : ℕ) :
    (∃ z : ℤ, hybridBreed c em g = (z : ℚ)) ∧
      (∃ z : ℤ, proportionalBreed c em g = (z : ℚ)) ∧
      ∀ zc : ℤ, c = (zc : ℚ) → ∃ z : ℤ, realSexBreed c sh emz g = (z : ℚ) := by
  refine ⟨hybridBreed_intCast c em g, proportionalBreed_intCast c em g, ?_⟩
  rintro zc rfl
  exact realSexBreed_intCast zc sh emz g

theorem breed_integrality_witness :
    (∃ z : ℤ, hybridBreed 3 [((3 : ℕ), (10 : ℚ))] 3 = (z : ℚ)) ∧
      (∃ z : ℤ, proportionalBreed 3 [((3 : ℕ), (10 : ℚ))] 3 = (z : ℚ)) ∧
      ∃ z : ℤ, realSexBreed 3 id [((3 : ℕ), (2 : ℤ))] 3 = (z : ℚ) := by
  obtain ⟨h1, h2, h3⟩ :=
    breed_integrality 3 (by norm_num) [((3 : ℕ), (10 : ℚ))] [((3 : ℕ), (2 : ℤ))] id 3
  exact ⟨h1, h2, h3 3 (by norm_num)⟩

/-- C6: `RealSex.breed` flattens the emergent set (one entry per
individual), applies the injected shuffle, and pairs index `i` with index
`i + half` for `i < half = len/2`, crediting `clutch_rate` to `g` exactly
for the pairs whose two genotypes are both `g`; when the length is odd the
final element after the shuffle is never consulted by the pairing loop. -/
theorem realsex_pairing (c : ℚ) (sh : List ℕ → List ℕ) (em : List (ℕ × ℤ))
    (g : ℕ) :
    realSexBreed c sh em g = c * pairMatches (sh (flattenAdults em)) g ∧
      ∀ (l : List ℕ) (x y : ℕ), l.length % 2 = 0 →
        pairOff c (l ++ [x]) = pairOff c (l ++ [y]) :=
  ⟨pairOff_eq_matches c _ g, fun l x y hl => pairOff_append_last c l x y hl⟩

theorem realsex_pairing_witness :
    realSexBreed 1 id [((2 : ℕ), (2 : ℤ))] 2
        = 1 * pairMatches (id (flattenAdults [((2 : ℕ), (2 : ℤ))])) 2 ∧
      pairOff 1 ([2, 2] ++ [3]) = pairOff 1 ([2, 2] ++ [4]) :=
  ⟨(realsex_pairing 1 id [((2 : ℕ), (2 : ℤ))] 2).1,
   (realsex_pairing 1 id [((2 : ℕ), (2 : ℤ))] 2).2 [2, 2] 3 4 (by decide)⟩

/-- C7: an empty emergent set never reaches the division by the emergent
total — both pair loops iterate nothing — so `HybridModel.breed` and
`Proportional.breed` return the empty default-zero mapping; consequently a
tick with no emergence appends exactly one zero-valued cohort to the tail
of every (popped and aged) queue. -/
theorem empty_emergence (sh : List ℕ → List ℕ) (eco : Ecosystem)
    (h : emergentOf eco = []) :
    (∀ (c : ℚ) (g : ℕ), hybridBreed c [] g = 0) ∧
      (∀ (c : ℚ) (g : ℕ), proportionalBreed c [] g = 0) ∧
      ∀ s, s = Strategy.hybrid ∨ s = Strategy.proportional →
        tickE s sh eco
          = some { eco with
              gen := eco.gen + 1
              counts := (agedCounts eco).map fun p => (p.1, p.2 ++ [0]) } := by
  refine ⟨hybridBreed_nil, proportionalBreed_nil, ?_⟩
  rintro s (rfl | rfl) <;>
    simp only [tickE, h, strategyBreed, List.map_nil, Option.map_some',
      hybridBreed_nil, proportionalBreed_nil]

theorem empty_emergence_witness :
    tickE .hybrid id ecoZero
      = some { ecoZero with
          gen := ecoZero.gen + 1
          counts := (agedCounts ecoZero).map fun p => (p.1, p.2 ++ [0]) } :=
  (empty_emergence id ecoZero (by norm_num [emergentOf, ecoZero])).2.2 .hybrid
    (Or.inl rfl)

/-- C8: the emergent list `tick()` passes to `breed` contains `(g, e)`
exactly when some queue of genotype `g` has front element whose floored
emergence `e = floor(front * emergence_success_rate)` is strictly
positive; hence every recorded emergent count is strictly positive. -/
theorem emergent_only_positive (eco : Ecosystem) :
    (∀ (g : ℕ) (e : ℤ),
        (g, e) ∈ emergentOf eco ↔
          ∃ q, (g, q) ∈ eco.counts ∧
            e = ⌊q.headD 0 * eco.emergence_success_rate⌋ ∧ 0 < e) ∧
      ∀ p ∈ emergentOf eco, 0 < p.2 :=
  ⟨emergentOf_mem eco, emergentOf_pos eco⟩

theorem emergent_only_positive_witness :
    ((1 : ℕ), (4 : ℤ)) ∈ emergentOf ecoFour ∧ (0 : ℤ) < 4 := by
  have h := emergent_only_positive ecoFour
  have hm : ((1 : ℕ), (4 : ℤ)) ∈ emergentOf ecoFour :=
    (h.1 1 4).mpr ⟨[4], by simp [ecoFour], by norm_num [ecoFour], by norm_num⟩
  exact ⟨hm, h.2 (1, 4) hm⟩

/-- C9 counterexample: under `HybridModel.breed` there is no emergent set
(of positive counts) giving positive offspring to a genotype absent from
it: the hybrid child genotype `min(g1,g2)` is always one of the two
emergent parents, so cross-breeding can never revive an absent genotype. -/
theorem hybrid_no_revival :
    ¬ ∃ (c : ℚ) (em : List (ℕ × ℚ)) (g : ℕ),
        (∀ p ∈ em, 0 < p.2) ∧ g ∉ em.map Prod.fst ∧ 0 < hybridBreed c em g := by
  rintro ⟨c, em, g, _, habs, hlt⟩
  rw [hybridBreed_absent c em g habs] at hlt
  exact lt_irrefl 0 hlt

/-- C9 amended: a genotype absent from the emergent set receives zero
offspring under all three strategies — under `Proportional` and `RealSex`
(with the shuffle a permutation) as claimed, and under `HybridModel` as
well, since `min(g1,g2)` is always one of the emergent parents. -/
theorem absent_genotype_no_offspring (c : ℚ) (em : List (ℕ × ℚ))
    (emz : List (ℕ × ℤ)) (sh : List ℕ → List ℕ) (g : ℕ)
    (h1 : g ∉ em.map Prod.fst) (h2 : g ∉ emz.map Prod.fst)
    (hsh : (sh (flattenAdults emz)).Perm (flattenAdults emz)) :
    proportionalBreed c em g = 0 ∧ hybridBreed c em g = 0 ∧
      realSexBreed c sh emz g = 0 :=
  ⟨proportionalBreed_absent c em g h1, hybridBreed_absent c em g h1,
   realSexBreed_absent c sh emz g h2 hsh⟩

theorem absent_genotype_witness :
    proportionalBreed 1 [((3 : ℕ), (10 : ℚ))] 7 = 0 ∧
      hybridBreed 1 [((3 : ℕ), (10 : ℚ))] 7 = 0 ∧
      realSexBreed 1 id [((3 : ℕ), (2 : ℤ))] 7 = 0 :=
  absent_genotype_no_offspring 1 [((3 : ℕ), (10 : ℚ))] [((3 : ℕ), (2 : ℤ))] id 7
    (by decide) (by decide) (List.Perm.refl _)

/-- C10: with the dynamic class exactly the base `Ecosystem`, `breed` (and
hence `tick`) raises `NotImplementedError` (modelled `none`); each of the
three strategy subclasses overrides `breed`, so their `tick` always
produces a successor state and the base body is never reached. -/
theorem base_breed_raises (sh : List ℕ → List ℕ) (eco : Ecosystem)
    (s : Strategy) :
    strategyBreed .base eco.clutch_rate sh (emergentOf eco) = none ∧
      tickE .base sh eco = none ∧
      (s ≠ .base → (tickE s sh eco).isSome = true) := by
  refine ⟨rfl, rfl, fun hs => ?_⟩
  cases s with
  | base => exact absurd rfl hs
  | hybrid => rfl
  | proportional => rfl
  | realSex => rfl

theorem base_breed_raises_witness :
    tickE .base id ecoZero = none ∧ (tickE .hybrid id ecoZero).isSome = true :=
  ⟨(base_breed_raises id ecoZero .hybrid).2.1,
   (base_breed_raises id ecoZero .hybrid).2.2 (by decide)⟩

/-- C1: for every ecosystem constructed (with any of the breeding
subclasses) from positive genotype periods, a non-negative initial size and
rates `larval_survival_rate`, `emergence_success_rate` in `[0,1]` and
non-negative `clutch_rate`, after any number of `tick()` calls every
genotype's cohort queue has length exactly its period and every element is
non-negative. -/
theorem cohort_queue_invariant (s : Strategy) (sh : List ℕ → List ℕ)
    (genotype : List ℕ) (lsr esr cr n : ℚ) (sat : Bool)
    (hg : ∀ g ∈ genotype, 0 < g) (hn : 0 ≤ n)
    (hl0 : 0 ≤ lsr) (hl1 : lsr ≤ 1) (he0 : 0 ≤ esr) (he1 : esr ≤ 1)
    (hc : 0 ≤ cr) (k : ℕ) (eco' : Ecosystem)
    (h : tickIter s sh k (mkEcosystem genotype lsr esr cr n sat) = some eco') :
    ∀ p ∈ eco'.counts, p.2.length = p.1 ∧ ∀ x ∈ p.2, 0 ≤ x := by
  have hInv := tickIter_preserves s sh k _ eco'
    (mkEcosystem_inv genotype lsr esr cr n sat hg hn hl0 hc) h
  intro p hp
  exact ⟨(hInv.1 p hp).2.1, (hInv.1 p hp).2.2⟩

theorem cohort_queue_invariant_witness :
    [(4 : ℚ)].length = 1 ∧ (0 : ℚ) ≤ 4 := by
  have h := cohort_queue_invariant .hybrid id [1] 1 1 1 4 false
    (by norm_num) (by norm_num) (by norm_num) (by norm_num) (by norm_num)
    (by norm_num) (by norm_num) 1 ⟨[(1, [4])], 1, 1, 1, 1⟩
    (by norm_num [tickIter, tickE, strategyBreed, emergentOf, agedCounts,
      hybridBreed, totalEmergent, mkEcosystem, initQueue, Function.update])
  have hp := h (1, [4]) (by simp)
  exact ⟨hp.1, hp.2 4 (by simp)⟩
